import Mathlib

/-!
Verification of the icon-utils canonical transaction serializer.

The serializer module of the repository implements a serde `Serializer`
writing into a single growable `String` buffer (`struct Serializer { output:
String }`).  The abstract data model of the specification ("Value Model") is a
tagged union covering exactly the serde shapes the source handles; here it is
embedded as the inductive type `Value`, and each serde method of the source is
embedded as the corresponding arm of `serializeValue` (with the element /
entry / field loops of the `SerializeSeq` / `SerializeMap` /
`SerializeStructVariant` impls as the helper functions below).

Machine integers: the source formats `i64` / `u64` with `to_string`, which is
plain decimal with a leading sign for negative numbers, so they are embedded
as `Int` / `Nat` with `toString`; no arithmetic is performed on them anywhere
in the serializer, so overflow never enters.  `f64` formatting (`to_string`)
is a total pure function of the float; since no claim depends on the digits
produced, a `Float` value carries its rendered decimal form directly.

Rust's `String::push_str`/`+=` is buffer append; `str::ends_with(char)` is a
test on the last character, embedded as `ends_with` below.
-/

/-- The Value Model of the specification (§3): one case per serializable
shape handled by the source serializer.  `Bytes` carries the bytes as
naturals (each is a `u8` formatted via `serialize_u64`). -/
inductive Value where
  | Bool (b : Bool)
  | SignedInt (i : Int)
  | UnsignedInt (u : Nat)
  | Float (rendered : String)
  | Text (s : String)
  | Bytes (bs : List Nat)
  | Absent
  | NamedUnit (name : String)
  | Wrapped (inner : Value)
  | TaggedSingle (tag : String) (inner : Value)
  | Sequence (items : List Value)
  | TaggedSequence (tag : String) (items : List Value)
  | Mapping (pairs : List (Value × Value))
  | TaggedMapping (tag : String) (fields : List (String × Value))
deriving Repr

/-- `SerializeError` of the source: a single case carrying a message,
produced only through serde's `Error::custom`, i.e. only by caller-supplied
`Serialize` impls — never by the serializer methods themselves. -/
inductive SerializeError where
  | FailedToSerialize (msg : String)
deriving Repr, DecidableEq

/-- The `Transaction` trait of the source exposes a method string and a
params payload; embedded as a structure. -/
structure Transaction where
  method : String
  params : Value

/-- Rust `str::ends_with(c: char)`: does the last character of `s` equal
`c`? -/
def ends_with (s : String) (c : Char) : Bool := s.data.getLast? == some c

/-- The element loop of `serialize_bytes`: each byte goes through
`SerializeSeq::serialize_element` (which prepends "." unless the buffer ends
with the opening bracket) and is formatted by `serialize_u8` →
`serialize_u64` → decimal. -/
def serializeByteElements : List Nat → String → Except SerializeError String
  | [], out => Except.ok out
  | b :: bs, out =>
      serializeByteElements bs ((if ends_with out '[' then out else out ++ ".") ++ toString b)

mutual
/-- One source serde method per arm, in source order of the `Value` cases:
`serialize_bool`, `serialize_i64`, `serialize_u64`, `serialize_f64`,
`serialize_str`, `serialize_bytes`, `serialize_unit` (also reached from
`serialize_none` and `serialize_unit_struct`), `serialize_unit_variant`,
`serialize_some` / `serialize_newtype_struct` (pass-through),
`serialize_newtype_variant`, `serialize_seq` (+ `SerializeSeq`, also
`serialize_tuple` / `serialize_tuple_struct`), `serialize_tuple_variant`
(+ `SerializeTupleVariant`), `serialize_map` (+ `SerializeMap`, also
`serialize_struct` with string keys), `serialize_struct_variant`
(+ `SerializeStructVariant`). -/
def serializeValue : Value → String → Except SerializeError String
  | Value.Bool b, out => Except.ok (out ++ if b then "true" else "false")
  | Value.SignedInt i, out => Except.ok (out ++ toString i)
  | Value.UnsignedInt u, out => Except.ok (out ++ toString u)
  | Value.Float rendered, out => Except.ok (out ++ rendered)
  | Value.Text s, out => Except.ok (out ++ s)
  | Value.Bytes bs, out => do
      let o ← serializeByteElements bs (out ++ "[")
      Except.ok (o ++ "]")
  | Value.Absent, out => Except.ok (out ++ "\x00")
  | Value.NamedUnit name, out => Except.ok (out ++ name)
  | Value.Wrapped inner, out => serializeValue inner out
  | Value.TaggedSingle tag inner, out => do
      let o ← serializeValue inner (out ++ "\x7b" ++ tag ++ ".")
      Except.ok (o ++ "\x7d")
  | Value.Sequence items, out => do
      let o ← serializeElements items (out ++ "[")
      Except.ok (o ++ "]")
  | Value.TaggedSequence tag items, out => do
      let o ← serializeElements items (out ++ "\x7b" ++ tag ++ ".[")
      Except.ok (o ++ "]\x7d")
  | Value.Mapping pairs, out => do
      let o ← serializeEntries pairs (out ++ "\x7b")
      Except.ok (o ++ "\x7d")
  | Value.TaggedMapping tag fields, out => do
      let o ← serializeFields fields (out ++ "\x7b" ++ tag ++ ".\x7b")
      Except.ok (o ++ "\x7d\x7d")

/-- `SerializeSeq::serialize_element` iterated: prepend "." unless the whole
buffer currently ends with the character found after `serialize_seq` pushed
the opening bracket. -/
def serializeElements : List Value → String → Except SerializeError String
  | [], out => Except.ok out
  | v :: vs, out => do
      let o ← serializeValue v (if ends_with out '[' then out else out ++ ".")
      serializeElements vs o

/-- `SerializeMap::serialize_key` then `serialize_value` iterated: the key is
preceded by "." unless the buffer ends with the opening brace; the value is
always preceded by ".". -/
def serializeEntries : List (Value × Value) → String → Except SerializeError String
  | [], out => Except.ok out
  | (k, v) :: ps, out => do
      let o ← serializeValue k (if ends_with out '\x7b' then out else out ++ ".")
      let o2 ← serializeValue v (o ++ ".")
      serializeEntries ps o2

/-- `SerializeStructVariant::serialize_field` iterated: the field key (a raw
string, emitted via `serialize_str`) is preceded by "." unless the buffer ends
with the opening brace, and is separated from its value by ":". -/
def serializeFields : List (String × Value) → String → Except SerializeError String
  | [], out => Except.ok out
  | (key, v) :: fs, out => do
      let o ← serializeValue v ((if ends_with out '\x7b' then out else out ++ ".") ++ key ++ ":")
      serializeFields fs o
end

/-- Encoding a bare value: a fresh `Serializer` with an empty buffer, exactly
as `serialize_to_string` builds one before serializing the params. -/
def encode (v : Value) : Except SerializeError String := serializeValue v ""

/-- `serialize_to_string` of the source: serialize the params into a fresh
serializer, then return `method + ".params." + output`. -/
def serialize_to_string (value : Transaction) : Except SerializeError String := do
  let out ← serializeValue value.params ""
  Except.ok (value.method ++ ".params." ++ out)

/-- Modelled from the spec: the repository source under `src/` contains no
second public entry point; the specification (§4.2) describes one that, for a
top-level `Mapping`/`TaggedMapping`, "strips exactly the first and last
character of the full `Mapping`/`TaggedMapping` encoding (the enclosing
`\x7b`/`\x7d` pair) before returning it". -/
def serialize_params (v : Value) : Except SerializeError String := do
  let s ← serializeValue v ""
  Except.ok ((s.drop 1).dropRight 1)

/-- Spec-side helper, following the specification wording "joined by" a
separator: the pieces concatenated with the separator between consecutive
pieces. -/
def joinedBy (sep : String) : List String → String
  | [] => ""
  | [x] => x
  | x :: y :: xs => x ++ sep ++ joinedBy sep (y :: xs)

/-- Non-first continuation of `joinedBy`: every piece preceded by the
separator. -/
def joinedTail (sep : String) : List String → String
  | [] => ""
  | x :: xs => sep ++ x ++ joinedTail sep xs

theorem except_bind_ok {α β : Type} (a : α) (f : α → Except SerializeError β) :
    (do let x ← Except.ok a; f x) = f a := rfl

theorem ends_with_append (a b : String) (hb : b ≠ "") (c : Char) :
    ends_with (a ++ b) c = ends_with b c := by
  have hbd : b.data ≠ [] := fun hd => hb (String.ext hd)
  unfold ends_with
  rw [String.data_append, List.getLast?_append_of_ne_nil _ hbd]

theorem serializeByteElements_flag (bs : List Nat) :
    ∀ fl : Bool, ∃ e, ∀ out, ends_with out '[' = fl →
      serializeByteElements bs out = Except.ok (out ++ e) := by
  induction bs with
  | nil =>
      intro fl
      exact ⟨"", fun out _ => by simp [serializeByteElements, String.append_empty]⟩
  | cons b bs ih =>
      intro fl
      obtain ⟨e2, h2⟩ := ih (if toString b = "" then fl else ends_with (toString b) '[')
      cases fl
      · refine ⟨"." ++ toString b ++ e2, fun out h => ?_⟩
        have hbuf : (if ends_with out '[' then out else out ++ ".") = out ++ "." := by simp [h]
        simp only [serializeByteElements]
        rw [hbuf]
        have hflag : ends_with ((out ++ ".") ++ toString b) '[' =
            (if toString b = "" then false else ends_with (toString b) '[') := by
          by_cases he : toString b = ""
          · rw [he, String.append_empty, if_pos rfl, ends_with_append out "." (by decide)]
            decide
          · rw [if_neg he, ends_with_append _ _ he]
        rw [h2 _ hflag]
        simp [String.append_assoc]
      · refine ⟨toString b ++ e2, fun out h => ?_⟩
        have hbuf : (if ends_with out '[' then out else out ++ ".") = out := by simp [h]
        simp only [serializeByteElements]
        rw [hbuf]
        have hflag : ends_with (out ++ toString b) '[' =
            (if toString b = "" then true else ends_with (toString b) '[') := by
          by_cases he : toString b = ""
          · rw [he, String.append_empty, if_pos rfl]
            exact h
          · rw [if_neg he, ends_with_append _ _ he]
        rw [h2 _ hflag]
        simp [String.append_assoc]

mutual
theorem serializeValue_ok (v : Value) :
    ∃ e, ∀ out, serializeValue v out = Except.ok (out ++ e) := by
  cases v with
  | Bool b => exact ⟨if b then "true" else "false", fun out => rfl⟩
  | SignedInt i => exact ⟨toString i, fun out => rfl⟩
  | UnsignedInt u => exact ⟨toString u, fun out => rfl⟩
  | Float rendered => exact ⟨rendered, fun out => rfl⟩
  | Text s => exact ⟨s, fun out => rfl⟩
  | Bytes bs =>
      obtain ⟨e, he⟩ := serializeByteElements_flag bs true
      refine ⟨"[" ++ e ++ "]", fun out => ?_⟩
      have hb : ends_with (out ++ "[") '[' = true := by
        rw [ends_with_append out "[" (by decide)]
        decide
      simp only [serializeValue]
      rw [he _ hb, except_bind_ok]
      simp [String.append_assoc]
  | Absent => exact ⟨"\x00", fun out => rfl⟩
  | NamedUnit name => exact ⟨name, fun out => rfl⟩
  | Wrapped inner =>
      obtain ⟨e, he⟩ := serializeValue_ok inner
      refine ⟨e, fun out => ?_⟩
      simp only [serializeValue]
      exact he out
  | TaggedSingle tag inner =>
      obtain ⟨e, he⟩ := serializeValue_ok inner
      refine ⟨"\x7b" ++ tag ++ "." ++ e ++ "\x7d", fun out => ?_⟩
      simp only [serializeValue]
      rw [he _, except_bind_ok]
      simp [String.append_assoc]
  | Sequence items =>
      obtain ⟨e, he⟩ := serializeElements_flag items true
      refine ⟨"[" ++ e ++ "]", fun out => ?_⟩
      have hb : ends_with (out ++ "[") '[' = true := by
        rw [ends_with_append out "[" (by decide)]
        decide
      simp only [serializeValue]
      rw [he _ hb, except_bind_ok]
      simp [String.append_assoc]
  | TaggedSequence tag items =>
      obtain ⟨e, he⟩ := serializeElements_flag items true
      refine ⟨"\x7b" ++ tag ++ ".[" ++ e ++ "]\x7d", fun out => ?_⟩
      have hb : ends_with (out ++ "\x7b" ++ tag ++ ".[") '[' = true := by
        rw [ends_with_append ((out ++ "\x7b") ++ tag) ".[" (by decide)]
        decide
      simp only [serializeValue]
      rw [he _ hb, except_bind_ok]
      simp [String.append_assoc]
  | Mapping pairs =>
      obtain ⟨e, he⟩ := serializeEntries_flag pairs true
      refine ⟨"\x7b" ++ e ++ "\x7d", fun out => ?_⟩
      have hb : ends_with (out ++ "\x7b") '\x7b' = true := by
        rw [ends_with_append out "\x7b" (by decide)]
        decide
      simp only [serializeValue]
      rw [he _ hb, except_bind_ok]
      simp [String.append_assoc]
  | TaggedMapping tag fields =>
      obtain ⟨e, he⟩ := serializeFields_flag fields true
      refine ⟨"\x7b" ++ tag ++ ".\x7b" ++ e ++ "\x7d\x7d", fun out => ?_⟩
      have hb : ends_with (out ++ "\x7b" ++ tag ++ ".\x7b") '\x7b' = true := by
        rw [ends_with_append ((out ++ "\x7b") ++ tag) ".\x7b" (by decide)]
        decide
      simp only [serializeValue]
      rw [he _ hb, except_bind_ok]
      simp [String.append_assoc]

theorem serializeElements_flag (vs : List Value) (fl : Bool) :
    ∃ e, ∀ out, ends_with out '[' = fl →
      serializeElements vs out = Except.ok (out ++ e) := by
  cases vs with
  | nil =>
      exact ⟨"", fun out _ => by simp [serializeElements, String.append_empty]⟩
  | cons v vs =>
      obtain ⟨e1, h1⟩ := serializeValue_ok v
      obtain ⟨e2, h2⟩ := serializeElements_flag vs (if e1 = "" then fl else ends_with e1 '[')
      cases fl
      · refine ⟨"." ++ e1 ++ e2, fun out h => ?_⟩
        have hbuf : (if ends_with out '[' then out else out ++ ".") = out ++ "." := by simp [h]
        simp only [serializeElements]
        rw [hbuf, h1, except_bind_ok]
        have hflag : ends_with ((out ++ ".") ++ e1) '[' =
            (if e1 = "" then false else ends_with e1 '[') := by
          by_cases he : e1 = ""
          · rw [he, String.append_empty, if_pos rfl, ends_with_append out "." (by decide)]
            decide
          · rw [if_neg he, ends_with_append _ _ he]
        rw [h2 _ hflag]
        simp [String.append_assoc]
      · refine ⟨e1 ++ e2, fun out h => ?_⟩
        have hbuf : (if ends_with out '[' then out else out ++ ".") = out := by simp [h]
        simp only [serializeElements]
        rw [hbuf, h1, except_bind_ok]
        have hflag : ends_with (out ++ e1) '[' =
            (if e1 = "" then true else ends_with e1 '[') := by
          by_cases he : e1 = ""
          · rw [he, String.append_empty, if_pos rfl]
            exact h
          · rw [if_neg he, ends_with_append _ _ he]
        rw [h2 _ hflag]
        simp [String.append_assoc]

theorem serializeEntries_flag (ps : List (Value × Value)) (fl : Bool) :
    ∃ e, ∀ out, ends_with out '\x7b' = fl →
      serializeEntries ps out = Except.ok (out ++ e) := by
  cases ps with
  | nil =>
      exact ⟨"", fun out _ => by simp [serializeEntries, String.append_empty]⟩
  | cons p ps =>
      obtain ⟨k, v⟩ := p
      obtain ⟨ek, hk⟩ := serializeValue_ok k
      obtain ⟨ev, hv⟩ := serializeValue_ok v
      obtain ⟨e2, h2⟩ := serializeEntries_flag ps (if ev = "" then false else ends_with ev '\x7b')
      cases fl
      · refine ⟨"." ++ ek ++ "." ++ ev ++ e2, fun out h => ?_⟩
        have hbuf : (if ends_with out '\x7b' then out else out ++ ".") = out ++ "." := by simp [h]
        simp only [serializeEntries]
        rw [hbuf, hk, except_bind_ok, hv, except_bind_ok]
        have hflag : ends_with ((((out ++ ".") ++ ek) ++ ".") ++ ev) '\x7b' =
            (if ev = "" then false else ends_with ev '\x7b') := by
          by_cases he : ev = ""
          · rw [he, String.append_empty, if_pos rfl, ends_with_append _ "." (by decide)]
            decide
          · rw [if_neg he, ends_with_append _ _ he]
        rw [h2 _ hflag]
        simp [String.append_assoc]
      · refine ⟨ek ++ "." ++ ev ++ e2, fun out h => ?_⟩
        have hbuf : (if ends_with out '\x7b' then out else out ++ ".") = out := by simp [h]
        simp only [serializeEntries]
        rw [hbuf, hk, except_bind_ok, hv, except_bind_ok]
        have hflag : ends_with (((out ++ ek) ++ ".") ++ ev) '\x7b' =
            (if ev = "" then false else ends_with ev '\x7b') := by
          by_cases he : ev = ""
          · rw [he, String.append_empty, if_pos rfl, ends_with_append _ "." (by decide)]
            decide
          · rw [if_neg he, ends_with_append _ _ he]
        rw [h2 _ hflag]
        simp [String.append_assoc]

theorem serializeFields_flag (fs : List (String × Value)) (fl : Bool) :
    ∃ e, ∀ out, ends_with out '\x7b' = fl →
      serializeFields fs out = Except.ok (out ++ e) := by
  cases fs with
  | nil =>
      exact ⟨"", fun out _ => by simp [serializeFields, String.append_empty]⟩
  | cons f fs =>
      obtain ⟨key, v⟩ := f
      obtain ⟨ev, hv⟩ := serializeValue_ok v
      obtain ⟨e2, h2⟩ := serializeFields_flag fs (if ev = "" then false else ends_with ev '\x7b')
      cases fl
      · refine ⟨"." ++ key ++ ":" ++ ev ++ e2, fun out h => ?_⟩
        have hbuf : (if ends_with out '\x7b' then out else out ++ ".") = out ++ "." := by simp [h]
        simp only [serializeFields]
        rw [hbuf, hv, except_bind_ok]
        have hflag : ends_with ((((out ++ ".") ++ key) ++ ":") ++ ev) '\x7b' =
            (if ev = "" then false else ends_with ev '\x7b') := by
          by_cases he : ev = ""
          · rw [he, String.append_empty, if_pos rfl, ends_with_append _ ":" (by decide)]
            decide
          · rw [if_neg he, ends_with_append _ _ he]
        rw [h2 _ hflag]
        simp [String.append_assoc]
      · refine ⟨key ++ ":" ++ ev ++ e2, fun out h => ?_⟩
        have hbuf : (if ends_with out '\x7b' then out else out ++ ".") = out := by simp [h]
        simp only [serializeFields]
        rw [hbuf, hv, except_bind_ok]
        have hflag : ends_with (((out ++ key) ++ ":") ++ ev) '\x7b' =
            (if ev = "" then false else ends_with ev '\x7b') := by
          by_cases he : ev = ""
          · rw [he, String.append_empty, if_pos rfl, ends_with_append _ ":" (by decide)]
            decide
          · rw [if_neg he, ends_with_append _ _ he]
        rw [h2 _ hflag]
        simp [String.append_assoc]
end

theorem serializeValue_extend (v : Value) (e : String) (h : encode v = Except.ok e)
    (out : String) : serializeValue v out = Except.ok (out ++ e) := by
  obtain ⟨e2, he⟩ := serializeValue_ok v
  have h0 := he ""
  rw [String.empty_append] at h0
  unfold encode at h
  rw [h0] at h
  injection h with h
  rw [← h]
  exact he out

theorem joinedBy_cons (sep x : String) (xs : List String) :
    joinedBy sep (x :: xs) = x ++ joinedTail sep xs := by
  induction xs generalizing x with
  | nil => simp [joinedBy, joinedTail, String.append_empty]
  | cons y ys ih =>
      rw [joinedBy, ih y, joinedTail]
      simp [String.append_assoc]

theorem serializeElements_joined_tail (items : List Value) (encs : List String)
    (h : List.Forall₂ (fun v e => encode v = Except.ok e ∧ e ≠ "" ∧ ends_with e '[' = false)
      items encs) :
    ∀ out, ends_with out '[' = false →
      serializeElements items out = Except.ok (out ++ joinedTail "." encs) := by
  induction h with
  | nil =>
      intro out _
      simp [serializeElements, joinedTail, String.append_empty]
  | @cons v e vs es hr hrest ih =>
      intro out hout
      obtain ⟨henc, hne, hfl⟩ := hr
      simp only [serializeElements]
      have hbuf : (if ends_with out '[' then out else out ++ ".") = out ++ "." := by simp [hout]
      rw [hbuf, serializeValue_extend v e henc, except_bind_ok]
      have h2 : ends_with ((out ++ ".") ++ e) '[' = false := by
        rw [ends_with_append _ _ hne]
        exact hfl
      rw [ih _ h2, joinedTail]
      simp [String.append_assoc]

theorem serializeElements_joined (items : List Value) (encs : List String)
    (h : List.Forall₂ (fun v e => encode v = Except.ok e ∧ e ≠ "" ∧ ends_with e '[' = false)
      items encs) :
    ∀ out, ends_with out '[' = true →
      serializeElements items out = Except.ok (out ++ joinedBy "." encs) := by
  cases h with
  | nil =>
      intro out _
      simp [serializeElements, joinedBy, String.append_empty]
  | @cons v e vs es hr hrest =>
      intro out hout
      obtain ⟨henc, hne, hfl⟩ := hr
      simp only [serializeElements]
      have hbuf : (if ends_with out '[' then out else out ++ ".") = out := by simp [hout]
      rw [hbuf, serializeValue_extend v e henc, except_bind_ok]
      have h2 : ends_with (out ++ e) '[' = false := by
        rw [ends_with_append _ _ hne]
        exact hfl
      rw [serializeElements_joined_tail vs es hrest _ h2, joinedBy_cons]
      simp [String.append_assoc]

theorem serializeEntries_joined_tail (pairs : List (Value × Value))
    (encs : List (String × String))
    (h : List.Forall₂ (fun kv es => encode kv.1 = Except.ok es.1 ∧
      encode kv.2 = Except.ok es.2 ∧ ends_with es.2 '\x7b' = false) pairs encs) :
    ∀ out, ends_with out '\x7b' = false →
      serializeEntries pairs out =
        Except.ok (out ++ joinedTail "." (encs.map fun es => es.1 ++ "." ++ es.2)) := by
  induction h with
  | nil =>
      intro out _
      simp [serializeEntries, joinedTail, String.append_empty]
  | @cons kv es ps less hr hrest ih =>
      intro out hout
      obtain ⟨hk, hv, hfl⟩ := hr
      simp only [serializeEntries]
      have hbuf : (if ends_with out '\x7b' then out else out ++ ".") = out ++ "." := by
        simp [hout]
      rw [hbuf, serializeValue_extend kv.1 es.1 hk, except_bind_ok,
        serializeValue_extend kv.2 es.2 hv, except_bind_ok]
      have h2 : ends_with ((((out ++ ".") ++ es.1) ++ ".") ++ es.2) '\x7b' = false := by
        by_cases he : es.2 = ""
        · rw [he, String.append_empty, ends_with_append _ "." (by decide)]
          decide
        · rw [ends_with_append _ _ he]
          exact hfl
      rw [ih _ h2, List.map_cons, joinedTail]
      simp [String.append_assoc]

theorem serializeEntries_joined (pairs : List (Value × Value))
    (encs : List (String × String))
    (h : List.Forall₂ (fun kv es => encode kv.1 = Except.ok es.1 ∧
      encode kv.2 = Except.ok es.2 ∧ ends_with es.2 '\x7b' = false) pairs encs) :
    ∀ out, ends_with out '\x7b' = true →
      serializeEntries pairs out =
        Except.ok (out ++ joinedBy "." (encs.map fun es => es.1 ++ "." ++ es.2)) := by
  cases h with
  | nil =>
      intro out _
      simp [serializeEntries, joinedBy, String.append_empty]
  | @cons kv es ps less hr hrest =>
      intro out hout
      obtain ⟨hk, hv, hfl⟩ := hr
      simp only [serializeEntries]
      have hbuf : (if ends_with out '\x7b' then out else out ++ ".") = out := by simp [hout]
      rw [hbuf, serializeValue_extend kv.1 es.1 hk, except_bind_ok,
        serializeValue_extend kv.2 es.2 hv, except_bind_ok]
      have h2 : ends_with (((out ++ es.1) ++ ".") ++ es.2) '\x7b' = false := by
        by_cases he : es.2 = ""
        · rw [he, String.append_empty, ends_with_append _ "." (by decide)]
          decide
        · rw [ends_with_append _ _ he]
          exact hfl
      rw [serializeEntries_joined_tail ps less hrest _ h2, List.map_cons, joinedBy_cons]
      simp [String.append_assoc]

theorem serializeFields_joined_tail (fields : List (String × Value))
    (encs : List (String × String))
    (h : List.Forall₂ (fun f es => f.1 = es.1 ∧
      encode f.2 = Except.ok es.2 ∧ ends_with es.2 '\x7b' = false) fields encs) :
    ∀ out, ends_with out '\x7b' = false →
      serializeFields fields out =
        Except.ok (out ++ joinedTail "." (encs.map fun es => es.1 ++ ":" ++ es.2)) := by
  induction h with
  | nil =>
      intro out _
      simp [serializeFields, joinedTail, String.append_empty]
  | @cons f es fs less hr hrest ih =>
      intro out hout
      obtain ⟨hkey, hv, hfl⟩ := hr
      simp only [serializeFields]
      have hbuf : (if ends_with out '\x7b' then out else out ++ ".") = out ++ "." := by
        simp [hout]
      rw [hbuf, hkey, serializeValue_extend f.2 es.2 hv, except_bind_ok]
      have h2 : ends_with ((((out ++ ".") ++ es.1) ++ ":") ++ es.2) '\x7b' = false := by
        by_cases he : es.2 = ""
        · rw [he, String.append_empty, ends_with_append _ ":" (by decide)]
          decide
        · rw [ends_with_append _ _ he]
          exact hfl
      rw [ih _ h2, List.map_cons, joinedTail]
      simp [String.append_assoc]

theorem serializeFields_joined (fields : List (String × Value))
    (encs : List (String × String))
    (h : List.Forall₂ (fun f es => f.1 = es.1 ∧
      encode f.2 = Except.ok es.2 ∧ ends_with es.2 '\x7b' = false) fields encs) :
    ∀ out, ends_with out '\x7b' = true →
      serializeFields fields out =
        Except.ok (out ++ joinedBy "." (encs.map fun es => es.1 ++ ":" ++ es.2)) := by
  cases h with
  | nil =>
      intro out _
      simp [serializeFields, joinedBy, String.append_empty]
  | @cons f es fs less hr hrest =>
      intro out hout
      obtain ⟨hkey, hv, hfl⟩ := hr
      simp only [serializeFields]
      have hbuf : (if ends_with out '\x7b' then out else out ++ ".") = out := by simp [hout]
      rw [hbuf, hkey, serializeValue_extend f.2 es.2 hv, except_bind_ok]
      have h2 : ends_with (((out ++ es.1) ++ ":") ++ es.2) '\x7b' = false := by
        by_cases he : es.2 = ""
        · rw [he, String.append_empty, ends_with_append _ ":" (by decide)]
          decide
        · rw [ends_with_append _ _ he]
          exact hfl
      rw [serializeFields_joined_tail fs less hrest _ h2, List.map_cons, joinedBy_cons]
      simp [String.append_assoc]

/-- Claim C1: for every transaction with method string `m` and parameter value
`p`, `serialize_to_string` returns `m ++ ".params." ++ e` where `e` is the
encoding of `p` alone; in particular a transaction with method "icx_call" and
params `Mapping [("a", Text "x")]` encodes to `"icx_call.params.\x7ba.x\x7d"`. -/
theorem serialize_to_string_spec :
    (∀ (m : String) (p : Value),
      serialize_to_string ⟨m, p⟩ = (encode p).map (fun e => m ++ ".params." ++ e)) ∧
    serialize_to_string ⟨"icx_call", Value.Mapping [(Value.Text "a", Value.Text "x")]⟩ =
      Except.ok "icx_call.params.\x7ba.x\x7d" := by
  constructor
  · intro m p
    show (do
        let out ← serializeValue p ""
        Except.ok (m ++ ".params." ++ out)) =
      (serializeValue p "").map (fun e => m ++ ".params." ++ e)
    cases hv : serializeValue p "" with
    | ok s => rfl
    | error err => rfl
  · rfl

/-- Claim C2 (counterexample): the universal claim "pairs joined by `.`" fails
when a value's encoding ends in the opening-brace character: for the mapping
`[("a", Text "\x7b"), ("b", SignedInt 1)]` the encoder emits `"\x7ba.\x7bb.1\x7d"`,
not the `"\x7ba.\x7b.b.1\x7d"` the joined-by-dot rule predicts from the pairs'
individual encodings. -/
theorem mapping_join_cex :
    encode (Value.Mapping [(Value.Text "a", Value.Text "\x7b"),
      (Value.Text "b", Value.SignedInt 1)]) = Except.ok "\x7ba.\x7bb.1\x7d" ∧
    encode (Value.Text "a") = Except.ok "a" ∧
    encode (Value.Text "\x7b") = Except.ok "\x7b" ∧
    encode (Value.Text "b") = Except.ok "b" ∧
    encode (Value.SignedInt 1) = Except.ok "1" ∧
    ("\x7ba.\x7bb.1\x7d" : String) ≠
      "\x7b" ++ joinedBy "." ["a" ++ "." ++ "\x7b", "b" ++ "." ++ "1"] ++ "\x7d" :=
  ⟨rfl, rfl, rfl, rfl, rfl, by decide⟩

/-- Claim C2 (amended): for every Mapping whose values' encodings do not end
in the opening-brace character, the encoding is `\x7b` + key-dot-value per
pair, pairs joined by `.`, + `\x7d`. -/
theorem mapping_join_amended (pairs : List (Value × Value))
    (encs : List (String × String))
    (h : List.Forall₂ (fun kv es => encode kv.1 = Except.ok es.1 ∧
      encode kv.2 = Except.ok es.2 ∧ ends_with es.2 '\x7b' = false) pairs encs) :
    encode (Value.Mapping pairs) =
      Except.ok ("\x7b" ++ joinedBy "." (encs.map fun es => es.1 ++ "." ++ es.2) ++ "\x7d") := by
  unfold encode
  simp only [serializeValue]
  have h1 : ends_with ("" ++ "\x7b") '\x7b' = true := by decide
  rw [serializeEntries_joined pairs encs h _ h1, except_bind_ok]
  simp [String.empty_append]

/-- Witness for the amended C2, at the claim's own example
`Mapping [("a", SignedInt 1), ("b", SignedInt 2)]` → `"\x7ba.1.b.2\x7d"`. -/
theorem mapping_join_amended_witness :
    encode (Value.Mapping [(Value.Text "a", Value.SignedInt 1),
      (Value.Text "b", Value.SignedInt 2)]) =
      Except.ok ("\x7b" ++ joinedBy "."
        ([("a", "1"), ("b", "2")].map fun es => es.1 ++ "." ++ es.2) ++ "\x7d") :=
  mapping_join_amended _ [("a", "1"), ("b", "2")]
    (List.Forall₂.cons ⟨rfl, rfl, rfl⟩ (List.Forall₂.cons ⟨rfl, rfl, rfl⟩ List.Forall₂.nil))

/-- Claim C3 (counterexample): the universal claim "fields joined by `.`"
fails when a field value's encoding ends in the opening-brace character: for
`TaggedMapping "Foo" [("a", Text "\x7b"), ("b", SignedInt 1)]` the encoder
emits `"\x7bFoo.\x7ba:\x7bb:1\x7d\x7d"`, not the joined-by-dot prediction. -/
theorem tagged_mapping_join_cex :
    encode (Value.TaggedMapping "Foo" [("a", Value.Text "\x7b"),
      ("b", Value.SignedInt 1)]) = Except.ok "\x7bFoo.\x7ba:\x7bb:1\x7d\x7d" ∧
    encode (Value.Text "\x7b") = Except.ok "\x7b" ∧
    encode (Value.SignedInt 1) = Except.ok "1" ∧
    ("\x7bFoo.\x7ba:\x7bb:1\x7d\x7d" : String) ≠
      "\x7b" ++ "Foo" ++ ".\x7b" ++
        joinedBy "." ["a" ++ ":" ++ "\x7b", "b" ++ ":" ++ "1"] ++ "\x7d\x7d" :=
  ⟨rfl, rfl, rfl, by decide⟩

/-- Claim C3 (amended): for every TaggedMapping whose field values' encodings
do not end in the opening-brace character, the encoding is `\x7btag.\x7b` +
key-colon-value per field, fields joined by `.`, + `\x7d\x7d` — tagged
mappings separate key from value with `:` while plain mappings use `.`. -/
theorem tagged_mapping_join_amended (tag : String) (fields : List (String × Value))
    (encs : List (String × String))
    (h : List.Forall₂ (fun f es => f.1 = es.1 ∧
      encode f.2 = Except.ok es.2 ∧ ends_with es.2 '\x7b' = false) fields encs) :
    encode (Value.TaggedMapping tag fields) =
      Except.ok ("\x7b" ++ tag ++ ".\x7b" ++
        joinedBy "." (encs.map fun es => es.1 ++ ":" ++ es.2) ++ "\x7d\x7d") := by
  unfold encode
  simp only [serializeValue]
  have h1 : ends_with ("" ++ "\x7b" ++ tag ++ ".\x7b") '\x7b' = true := by
    rw [ends_with_append (("" ++ "\x7b") ++ tag) ".\x7b" (by decide)]
    decide
  rw [serializeFields_joined fields encs h _ h1, except_bind_ok]
  simp [String.empty_append, String.append_assoc]

/-- Witness for the amended C3, at the claim's own example
`TaggedMapping "Foo" [("a", SignedInt 1)]` → `"\x7bFoo.\x7ba:1\x7d\x7d"`. -/
theorem tagged_mapping_join_amended_witness :
    encode (Value.TaggedMapping "Foo" [("a", Value.SignedInt 1)]) =
      Except.ok ("\x7b" ++ "Foo" ++ ".\x7b" ++
        joinedBy "." ([("a", "1")].map fun es => es.1 ++ ":" ++ es.2) ++ "\x7d\x7d") :=
  tagged_mapping_join_amended "Foo" _ [("a", "1")]
    (List.Forall₂.cons ⟨rfl, rfl, rfl⟩ List.Forall₂.nil)

/-- Claim C4 (counterexample): the "." separator does NOT appear between every
two consecutive items regardless of what the items are: for
`Sequence [Text "a[", Text "b"]` the encoder emits `"[a[b]"` with no
separator, because the separator test looks at the last character of the
whole buffer, which the first item left as an opening bracket. -/
theorem sequence_join_cex :
    encode (Value.Sequence [Value.Text "a[", Value.Text "b"]) = Except.ok "[a[b]" ∧
    encode (Value.Text "a[") = Except.ok "a[" ∧
    encode (Value.Text "b") = Except.ok "b" ∧
    ("[a[b]" : String) ≠ "[" ++ joinedBy "." ["a[", "b"] ++ "]" :=
  ⟨rfl, rfl, rfl, by decide⟩

/-- Claim C4 (amended): for every Sequence whose items' encodings are all
nonempty and do not end in the opening-bracket character, the encoding is `[`
followed by the items' encodings joined by `.` followed by `]`. -/
theorem sequence_join_amended (items : List Value) (encs : List String)
    (h : List.Forall₂ (fun v e => encode v = Except.ok e ∧ e ≠ "" ∧
      ends_with e '[' = false) items encs) :
    encode (Value.Sequence items) =
      Except.ok ("[" ++ joinedBy "." encs ++ "]") := by
  unfold encode
  simp only [serializeValue]
  have h1 : ends_with ("" ++ "[") '[' = true := by decide
  rw [serializeElements_joined items encs h _ h1, except_bind_ok]
  simp [String.empty_append]

/-- Witness for the amended C4, at the claim's own example
`Sequence [SignedInt 1, SignedInt 2]` → `"[1.2]"`. -/
theorem sequence_join_amended_witness :
    encode (Value.Sequence [Value.SignedInt 1, Value.SignedInt 2]) =
      Except.ok ("[" ++ joinedBy "." ["1", "2"] ++ "]") :=
  sequence_join_amended _ ["1", "2"]
    (List.Forall₂.cons ⟨rfl, by decide, rfl⟩
      (List.Forall₂.cons ⟨rfl, by decide, rfl⟩ List.Forall₂.nil))

/-- Claim C5: for every string `s`, the encoding of `Text s` is exactly `s`,
with no escaping or alteration of any character, including the structural
characters `.`, `\x7b`, `\x7d`, `[`, `]`. -/
theorem text_verbatim :
    (∀ s : String, encode (Value.Text s) = Except.ok s) ∧
    encode (Value.Text ".\x7b\x7d[]") = Except.ok ".\x7b\x7d[]" :=
  ⟨fun s => by
    unfold encode
    simp only [serializeValue]
    rw [String.empty_append], rfl⟩

/-- Claim C6: the encoder never reorders a Mapping's pairs — pairs are
emitted in insertion order, so `[(b,1),(a,2)]` and `[(a,2),(b,1)]` give
different strings. -/
theorem mapping_order_sensitive :
    encode (Value.Mapping [(Value.Text "b", Value.SignedInt 1),
      (Value.Text "a", Value.SignedInt 2)]) = Except.ok "\x7bb.1.a.2\x7d" ∧
    encode (Value.Mapping [(Value.Text "a", Value.SignedInt 2),
      (Value.Text "b", Value.SignedInt 1)]) = Except.ok "\x7ba.2.b.1\x7d" ∧
    ("\x7bb.1.a.2\x7d" : String) ≠ "\x7ba.2.b.1\x7d" :=
  ⟨rfl, rfl, by decide⟩

/-- Claim C7: encoding any value built from the Value Model's own cases
returns `Except.ok` — it never returns an error — and so does
`serialize_to_string` on any transaction. -/
theorem encode_total :
    (∀ v : Value, ∃ s, encode v = Except.ok s) ∧
    (∀ tx : Transaction, ∃ s, serialize_to_string tx = Except.ok s) := by
  constructor
  · intro v
    obtain ⟨e, he⟩ := serializeValue_ok v
    exact ⟨"" ++ e, he ""⟩
  · intro tx
    obtain ⟨e, he⟩ := serializeValue_ok tx.params
    refine ⟨tx.method ++ ".params." ++ ("" ++ e), ?_⟩
    unfold serialize_to_string
    rw [he "", except_bind_ok]

/-- Claim C8 (spec-modelled second entry point): for every Mapping or
TaggedMapping value, `serialize_params` returns the full encoding with
exactly its first and last character removed, and those characters are the
enclosing `\x7b` and `\x7d`. -/
theorem serialize_params_strips (v : Value)
    (h : (∃ ps, v = Value.Mapping ps) ∨ ∃ tag fs, v = Value.TaggedMapping tag fs) :
    ∃ e, encode v = Except.ok e ∧
      serialize_params v = Except.ok ((e.drop 1).dropRight 1) ∧
      ∃ mid, e = "\x7b" ++ mid ++ "\x7d" := by
  rcases h with ⟨ps, rfl⟩ | ⟨tag, fs, rfl⟩
  · obtain ⟨t, ht⟩ := serializeEntries_flag ps true
    have hb : ends_with ("" ++ "\x7b") '\x7b' = true := by decide
    have henc : serializeValue (Value.Mapping ps) "" =
        Except.ok ((("" ++ "\x7b") ++ t) ++ "\x7d") := by
      simp only [serializeValue]
      rw [ht _ hb, except_bind_ok]
    refine ⟨_, henc, ?_, ⟨t, ?_⟩⟩
    · unfold serialize_params
      rw [henc, except_bind_ok]
    · rw [String.empty_append]
  · obtain ⟨t, ht⟩ := serializeFields_flag fs true
    have hb : ends_with ("" ++ "\x7b" ++ tag ++ ".\x7b") '\x7b' = true := by
      rw [ends_with_append (("" ++ "\x7b") ++ tag) ".\x7b" (by decide)]
      decide
    have henc : serializeValue (Value.TaggedMapping tag fs) "" =
        Except.ok (((("" ++ "\x7b") ++ tag ++ ".\x7b") ++ t) ++ "\x7d\x7d") := by
      simp only [serializeValue]
      rw [ht _ hb, except_bind_ok]
    refine ⟨_, henc, ?_, ⟨tag ++ ".\x7b" ++ t ++ "\x7d", ?_⟩⟩
    · unfold serialize_params
      rw [henc, except_bind_ok]
    · have h2 : ("\x7d\x7d" : String) = "\x7d" ++ "\x7d" := rfl
      rw [h2]
      simp [String.empty_append, String.append_assoc]

/-- Witness for C8: at `Mapping [("a", SignedInt 1)]`, whose full encoding is
`"\x7ba.1\x7d"`, the bare-record entry point returns `"a.1"`. -/
theorem serialize_params_strips_witness :
    (∃ e, encode (Value.Mapping [(Value.Text "a", Value.SignedInt 1)]) = Except.ok e ∧
      serialize_params (Value.Mapping [(Value.Text "a", Value.SignedInt 1)]) =
        Except.ok ((e.drop 1).dropRight 1) ∧
      ∃ mid, e = "\x7b" ++ mid ++ "\x7d") ∧
    serialize_params (Value.Mapping [(Value.Text "a", Value.SignedInt 1)]) =
      Except.ok "a.1" :=
  ⟨serialize_params_strips _ (Or.inl ⟨_, rfl⟩), rfl⟩

/-- Claim C9: the encoding of `Absent` (a missing/None optional or the unit
value) is exactly one character, the NUL character. -/
theorem absent_nul :
    encode Value.Absent = Except.ok "\x00" ∧ ("\x00" : String).length = 1 :=
  ⟨rfl, rfl⟩

/-- Claim C10: the output buffer is append-only — every serializer operation
(the main visitor and each element/entry/field/byte loop) leaves the buffer
contents before the call as an unchanged prefix of the buffer afterwards. -/
theorem buffer_append_only :
    (∀ (v : Value) (out : String), ∃ e, serializeValue v out = Except.ok (out ++ e)) ∧
    (∀ (vs : List Value) (out : String), ∃ e, serializeElements vs out = Except.ok (out ++ e)) ∧
    (∀ (ps : List (Value × Value)) (out : String),
      ∃ e, serializeEntries ps out = Except.ok (out ++ e)) ∧
    (∀ (fs : List (String × Value)) (out : String),
      ∃ e, serializeFields fs out = Except.ok (out ++ e)) ∧
    (∀ (bs : List Nat) (out : String),
      ∃ e, serializeByteElements bs out = Except.ok (out ++ e)) := by
  refine ⟨fun v out => ?_, fun vs out => ?_, fun ps out => ?_, fun fs out => ?_,
    fun bs out => ?_⟩
  · obtain ⟨e, he⟩ := serializeValue_ok v
    exact ⟨e, he out⟩
  · obtain ⟨e, he⟩ := serializeElements_flag vs (ends_with out '[')
    exact ⟨e, he out rfl⟩
  · obtain ⟨e, he⟩ := serializeEntries_flag ps (ends_with out '\x7b')
    exact ⟨e, he out rfl⟩
  · obtain ⟨e, he⟩ := serializeFields_flag fs (ends_with out '\x7b')
    exact ⟨e, he out rfl⟩
  · obtain ⟨e, he⟩ := serializeByteElements_flag bs (ends_with out '[')
    exact ⟨e, he out rfl⟩
